import Mathlib

/-!
Verification of the spinning ASCII-cube renderer (`src/main.rs`).

The program's `f32` arithmetic is modelled by exact rationals `ℚ`; the
infinite-precision model keeps every algebraic identity of the source
expressions.  The 80x40 byte frame buffer is modelled as a total function
`ℕ → ℕ → Char`, and Rust's bounds-checked array writes (which panic when
out of range) are modelled by `Option`: a write outside the buffer yields
`none`, standing for the panic.  Rust's saturating `f32 → usize` casts
are modelled by truncation toward zero clamped to `[0, usize::MAX]`.
-/

namespace Cube

/-- Model of `struct Vector([f32; 4])`: a homogeneous 4-component vector.
Component `i` of the source array is field `x`/`y`/`z`/`w` here. -/
structure Vector where
  x : ℚ
  y : ℚ
  z : ℚ
  w : ℚ

/-- Model of `struct Matrix([[f32; 4]; 4])`: a 4x4 matrix stored as 4 columns,
named `mx my mz mw` after the binders in `matrix_times_vector`. -/
structure Matrix where
  mx : Vector
  my : Vector
  mz : Vector
  mw : Vector

/-- Model of `fn matrix_times_vector(m: &Matrix, v: &Vector) -> Vector`
(src/main.rs lines 39-49): componentwise weighted sum of the columns. -/
def matrix_times_vector (m : Matrix) (v : Vector) : Vector :=
  ⟨v.x * m.mx.x + v.y * m.my.x + v.z * m.mz.x + v.w * m.mw.x,
   v.x * m.mx.y + v.y * m.my.y + v.z * m.mz.y + v.w * m.mw.y,
   v.x * m.mx.z + v.y * m.my.z + v.z * m.mz.z + v.w * m.mw.z,
   v.x * m.mx.w + v.y * m.my.w + v.z * m.mz.w + v.w * m.mw.w⟩

/-- Componentwise vector addition (used to state the spec's
"sum of scaled columns" reading of the product). -/
def vecAdd (a b : Vector) : Vector :=
  ⟨a.x + b.x, a.y + b.y, a.z + b.z, a.w + b.w⟩

/-- A scalar scaling a vector componentwise. -/
def vecScale (k : ℚ) (a : Vector) : Vector :=
  ⟨k * a.x, k * a.y, k * a.z, k * a.w⟩

/-- Model of `const VERTICES : [Vector; 8]` (src/main.rs lines 19-27). -/
def VERTICES : List Vector :=
  [⟨-1, -1, -1, 1⟩, ⟨-1, -1, 1, 1⟩, ⟨1, -1, -1, 1⟩, ⟨1, -1, 1, 1⟩,
   ⟨-1, 1, -1, 1⟩, ⟨-1, 1, 1, 1⟩, ⟨1, 1, -1, 1⟩, ⟨1, 1, 1, 1⟩]

/-- Model of `const FACES : [[u8; 4]; 6]` (src/main.rs lines 30-36). -/
def FACES : List (List ℕ) :=
  [[1, 5, 7, 3], [3, 7, 6, 2], [0, 4, 5, 1], [2, 6, 4, 0], [0, 1, 3, 2], [5, 4, 6, 7]]

/-- Source constant `SCREEN_WIDTH : usize = 80`. -/
def SCREEN_WIDTH : ℕ := 80

/-- Source constant `SCREEN_HEIGHT : usize = 40`. -/
def SCREEN_HEIGHT : ℕ := 40

/-- Source constant `OFFSET_X = SCREEN_WIDTH as f32 * 0.5`. -/
def OFFSET_X : ℚ := (SCREEN_WIDTH : ℚ) * 0.5

/-- Source constant `OFFSET_Y = SCREEN_HEIGHT as f32 * 0.5`. -/
def OFFSET_Y : ℚ := (SCREEN_HEIGHT : ℚ) * 0.5

/-- Source constant `SCALE_X = SCREEN_WIDTH as f32 * 0.5`. -/
def SCALE_X : ℚ := (SCREEN_WIDTH : ℚ) * 0.5

/-- Source constant `SCALE_Y = SCREEN_HEIGHT as f32 * 0.5`. -/
def SCALE_Y : ℚ := (SCREEN_HEIGHT : ℚ) * 0.5

/-- The per-frame rotation+translation matrix `cube_to_world`
(src/main.rs lines 77-83), parametrized by the frame's `c = cos t` and
`s = sin t`.  Each listed row of the source array is a column. -/
def cube_to_world (c s : ℚ) : Matrix :=
  ⟨⟨c, 0, s, 0⟩, ⟨0, 1, 0, 0⟩, ⟨-s, 0, c, 0⟩, ⟨0, 0, -2.5, 1⟩⟩

/-- The projection of one vertex to screen space (src/main.rs lines 89-93):
transform by `cube_to_world`, perspective-divide by view-space z, then
scale and offset into character coordinates. -/
def projectVertex (m : Matrix) (v : Vector) : ℚ × ℚ :=
  let world_pos := matrix_times_vector m v
  let recip_z := 1 / world_pos.z
  (world_pos.x * recip_z * SCALE_X + OFFSET_X,
   world_pos.y * recip_z * SCALE_Y + OFFSET_Y)

/-- The `screen_pos` array of src/main.rs lines 87-95: all 8 vertices
projected, for rotation parameters `c`, `s`. -/
def screen_pos (c s : ℚ) : List (ℚ × ℚ) :=
  VERTICES.map (projectVertex (cube_to_world c s))

/-- Model of `fn cull(p0: [f32; 2], p1: [f32; 2], p2: [f32; 2]) -> bool`
(src/main.rs lines 125-129). -/
def cull (p0 p1 p2 : ℚ × ℚ) : Bool :=
  let dx0 := p1.1 - p0.1
  let dx1 := p2.1 - p1.1
  let dy0 := p1.2 - p0.2
  let dy1 := p2.2 - p1.2
  decide (dx0 * dy1 > dx1 * dy0)

/-- The 2D cross product of the edge vectors `(p1 - p0)` and `(p2 - p1)`,
as the spec describes the cull test (spec section 4.4). -/
def edgeCross (p0 p1 p2 : ℚ × ℚ) : ℚ :=
  (p1.1 - p0.1) * (p2.2 - p1.2) - (p1.2 - p0.2) * (p2.1 - p1.1)

/-- Uniform scaling of a screen point by a factor `k`. -/
def scalePt (k : ℚ) (p : ℚ × ℚ) : ℚ × ℚ := (k * p.1, k * p.2)

/-- The frame buffer `[[u8; SCREEN_WIDTH]; SCREEN_HEIGHT]`, modelled as a
total function from (row, column) to the stored character. -/
def Buffer : Type := ℕ → ℕ → Char

/-- The cleared frame `[[b' '; SCREEN_WIDTH]; SCREEN_HEIGHT]`
(src/main.rs line 70). -/
def blank : Buffer := fun _ _ => ' '

/-- The value `usize::MAX` on the 64-bit target. -/
def USIZE_MAX : ℕ := 2 ^ 64 - 1

/-- Rust's saturating cast of a (mathematical) integer to `usize`:
negative values become 0, values above `usize::MAX` clamp. -/
def intUsize (i : ℤ) : ℕ := min i.toNat USIZE_MAX

/-- Rust's `q as usize` for a real value `q`: truncation toward zero with
saturation; for `q < 0` the result is 0, otherwise `⌊q⌋` clamped. -/
def ratUsize (q : ℚ) : ℕ := intUsize ⌊q⌋

/-- Model of `q.ceil() as usize`: the ceiling, then the saturating cast. -/
def ceilUsize (q : ℚ) : ℕ := intUsize ⌈q⌉

/-- One bounds-checked store `frame[r][c] = ch`: Rust's indexing panics
(here: `none`) when the indices are outside the 40x80 buffer. -/
def setCell (b : Buffer) (r c : ℕ) (ch : Char) : Option Buffer :=
  if r < SCREEN_HEIGHT ∧ c < SCREEN_WIDTH then
    some (fun r' c' => if r' = r ∧ c' = c then ch else b r' c')
  else none

/-- The vertical branch loop of `draw_line` (src/main.rs lines 142-145):
for each row `iy` of the list, store `'|'` at `(iy, f iy)` where `f`
interpolates the column. -/
def vloop (f : ℕ → ℕ) : Buffer → List ℕ → Option Buffer
  | b, [] => some b
  | b, iy :: rest => (setCell b iy (f iy) '|').bind fun b1 => vloop f b1 rest

/-- The horizontal branch loop of `draw_line` (src/main.rs lines 152-155):
for each column `ix` of the list, store `'-'` at `(f ix, ix)` where `f`
interpolates the row. -/
def hloop (f : ℕ → ℕ) : Buffer → List ℕ → Option Buffer
  | b, [] => some b
  | b, ix :: rest => (setCell b (f ix) ix '-').bind fun b1 => hloop f b1 rest

/-- Model of `fn draw_line(frame, start, end)` (src/main.rs lines 132-157): choose
the step axis by comparing extents, iterate integer coordinates between
the rounded-up (ceiling) bounds, interpolating the other coordinate. -/
def draw_line (b : Buffer) (ps pe : ℚ × ℚ) : Option Buffer :=
  let x0 := ps.1
  let y0 := ps.2
  let x1 := pe.1
  let y1 := pe.2
  let dx := x1 - x0
  let dy := y1 - y0
  if |dy| > |dx| then
    let iymin := ceilUsize (min y0 y1)
    let iymax := ceilUsize (max y0 y1)
    let dxdy := dx / dy
    vloop (fun iy => ratUsize (((iy : ℚ) - y0) * dxdy + x0)) b
      (List.range' iymin (iymax - iymin))
  else
    let ixmin := ceilUsize (min x0 x1)
    let ixmax := ceilUsize (max x0 x1)
    let dydx := dy / dx
    hloop (fun ix => ratUsize (((ix : ℚ) - x0) * dydx + y0)) b
      (List.range' ixmin (ixmax - ixmin))

/-- The extent of a segment along the axis `draw_line` steps over: the
vertical extent when `|dy| > |dx|` (the `'|'` branch), else the
horizontal extent. -/
def steppedExtent (ps pe : ℚ × ℚ) : ℚ :=
  if |pe.2 - ps.2| > |pe.1 - ps.1| then |pe.2 - ps.2| else |pe.1 - ps.1|

/-- The edge loop of one face (src/main.rs lines 101-105): `end` starts
as `face[3]`, and each `start` in the face draws `start → end` and
becomes the next `end`. -/
def drawEdges (sp : ℕ → ℚ × ℚ) : List ℕ → ℕ → Buffer → Option Buffer
  | [], _, b => some b
  | st :: rest, en, b => (draw_line b (sp st) (sp en)).bind (drawEdges sp rest st)

/-- One face of the per-frame loop (src/main.rs lines 99-107): cull test
on the first three vertices, then the four edges if visible. -/
def drawFace (sp : ℕ → ℚ × ℚ) (b : Buffer) (face : List ℕ) : Option Buffer :=
  if cull (sp (face.getD 0 0)) (sp (face.getD 1 0)) (sp (face.getD 2 0)) then some b
  else drawEdges sp face (face.getD 3 0) b

/-- All six faces in order. -/
def drawFaces (sp : ℕ → ℚ × ℚ) : List (List ℕ) → Buffer → Option Buffer
  | [], b => some b
  | f :: rest, b => (drawFace sp b f).bind (drawFaces sp rest)

/-- The projected positions as an index function (out-of-range indices
never occur: faces only hold indices 0-7). -/
def spFun (c s : ℚ) (i : ℕ) : ℚ × ℚ := (screen_pos c s).getD i (0, 0)

/-- One whole frame of `main`'s loop, for rotation parameters `c`, `s`:
clear the buffer, project, cull and rasterize each face.  The result is
the buffer printed at src/main.rs lines 110-113 (`none` = the frame
panicked before printing). -/
def renderFrame (c s : ℚ) : Option Buffer := drawFaces (spFun c s) FACES blank

lemma cull_eq_decide (p0 p1 p2 : ℚ × ℚ) :
    cull p0 p1 p2 = decide (0 < edgeCross p0 p1 p2) := by
  simp only [cull, edgeCross, gt_iff_lt]
  rw [decide_eq_decide, sub_pos, mul_comm (p1.2 - p0.2) (p2.1 - p1.1)]

lemma edgeCross_swap01 (p0 p1 p2 : ℚ × ℚ) :
    edgeCross p1 p0 p2 = -edgeCross p0 p1 p2 := by
  simp only [edgeCross]; ring

lemma edgeCross_swap12 (p0 p1 p2 : ℚ × ℚ) :
    edgeCross p0 p2 p1 = -edgeCross p0 p1 p2 := by
  simp only [edgeCross]; ring

lemma edgeCross_swap02 (p0 p1 p2 : ℚ × ℚ) :
    edgeCross p2 p1 p0 = -edgeCross p0 p1 p2 := by
  simp only [edgeCross]; ring

lemma decide_pos_neg (e : ℚ) (h : e ≠ 0) :
    decide (0 < -e) = !decide (0 < e) := by
  rcases lt_or_gt_of_ne h with h' | h'
  · have h1 : 0 < -e := neg_pos.mpr h'
    have h2 : ¬0 < e := not_lt.mpr h'.le
    simp [h1, h2]
  · have h1 : ¬0 < -e := by rw [neg_pos]; exact not_lt.mpr h'.le
    simp [h1, h']

/-- C1: `matrix_times_vector` returns the sum over the input vector's 4
components, each scaling the correspondingly-indexed column of the matrix,
componentwise. -/
theorem matrix_times_vector_is_weighted_column_sum (m : Matrix) (v : Vector) :
    matrix_times_vector m v =
      vecAdd (vecAdd (vecAdd (vecScale v.x m.mx) (vecScale v.y m.my))
        (vecScale v.z m.mz)) (vecScale v.w m.mw) := rfl

/-- C2: `cull` returns `true` exactly when the 2D cross product of the
edge vectors `(p1-p0)` and `(p2-p1)` is strictly positive, and `false`
when that cross product is negative or exactly zero. -/
theorem cull_iff_edgeCross_pos (p0 p1 p2 : ℚ × ℚ) :
    (cull p0 p1 p2 = true ↔ 0 < edgeCross p0 p1 p2) ∧
    (cull p0 p1 p2 = false ↔ edgeCross p0 p1 p2 ≤ 0) := by
  rw [cull_eq_decide]
  constructor
  · exact decide_eq_true_iff
  · rw [decide_eq_false_iff_not, not_lt]

/-- C3: at frame 0 (`t = 0`, so `c = 1`, `s = 0`) the 8 projected screen
coordinates are these exact values; in particular vertex `(-1,-1,-1)`
passes through the z-translation of `-2.5` to world z `-3.5` and lands on
`(40 + 40/3.5, 20 + 20/3.5)`. -/
theorem screen_pos_frame_zero :
    screen_pos 1 0 =
      [(360/7, 180/7), (200/3, 100/3), (200/7, 180/7), (40/3, 100/3),
       (360/7, 100/7), (200/3, 20/3), (200/7, 100/7), (40/3, 20/3)] ∧
    (screen_pos 1 0).getD 0 (0, 0) = (40 + 40/(3.5 : ℚ), 20 + 20/(3.5 : ℚ)) := by
  constructor
  · show List.map _ _ = _
    simp only [VERTICES, List.map, projectVertex, cube_to_world, matrix_times_vector,
      SCALE_X, SCALE_Y, OFFSET_X, OFFSET_Y, SCREEN_WIDTH, SCREEN_HEIGHT, screen_pos]
    norm_num
  · show (List.map _ _).getD 0 (0, 0) = _
    simp only [VERTICES, List.map, projectVertex, cube_to_world, matrix_times_vector,
      SCALE_X, SCALE_Y, OFFSET_X, OFFSET_Y, SCREEN_WIDTH, SCREEN_HEIGHT, screen_pos]
    norm_num

/-- C6 counterexample: on a collinear (degenerate) triple the cross
product is zero, `cull` answers `false` for both orders, and swapping the
first two points does not flip the decision. -/
theorem cull_swap_not_always_flips :
    ¬(cull ((1 : ℚ), 0) ((0 : ℚ), 0) ((2 : ℚ), 0) =
      !cull ((0 : ℚ), 0) ((1 : ℚ), 0) ((2 : ℚ), 0)) := by
  have h1 : cull ((1 : ℚ), 0) ((0 : ℚ), 0) ((2 : ℚ), 0) = false := by
    rw [cull_eq_decide, decide_eq_false_iff_not]
    norm_num [edgeCross]
  have h2 : cull ((0 : ℚ), 0) ((1 : ℚ), 0) ((2 : ℚ), 0) = false := by
    rw [cull_eq_decide, decide_eq_false_iff_not]
    norm_num [edgeCross]
  rw [h1, h2]
  decide

/-- C6 (amended): when the 2D cross product of the edges is nonzero,
swapping any two of the three points flips the cull/draw decision. -/
theorem cull_swap_flips (p0 p1 p2 : ℚ × ℚ) (h : edgeCross p0 p1 p2 ≠ 0) :
    cull p1 p0 p2 = !cull p0 p1 p2 ∧
    cull p0 p2 p1 = !cull p0 p1 p2 ∧
    cull p2 p1 p0 = !cull p0 p1 p2 := by
  refine ⟨?_, ?_, ?_⟩
  · rw [cull_eq_decide, cull_eq_decide, edgeCross_swap01]
    exact decide_pos_neg _ h
  · rw [cull_eq_decide, cull_eq_decide, edgeCross_swap12]
    exact decide_pos_neg _ h
  · rw [cull_eq_decide, cull_eq_decide, edgeCross_swap02]
    exact decide_pos_neg _ h

/-- Witness for C6 (amended) at the concrete triple (0,0), (1,0), (0,1). -/
theorem cull_swap_flips_witness :
    edgeCross ((0 : ℚ), 0) ((1 : ℚ), 0) ((0 : ℚ), 1) ≠ 0 ∧
    (cull ((1 : ℚ), 0) ((0 : ℚ), 0) ((0 : ℚ), 1) =
        !cull ((0 : ℚ), 0) ((1 : ℚ), 0) ((0 : ℚ), 1) ∧
      cull ((0 : ℚ), 0) ((0 : ℚ), 1) ((1 : ℚ), 0) =
        !cull ((0 : ℚ), 0) ((1 : ℚ), 0) ((0 : ℚ), 1) ∧
      cull ((0 : ℚ), 1) ((1 : ℚ), 0) ((0 : ℚ), 0) =
        !cull ((0 : ℚ), 0) ((1 : ℚ), 0) ((0 : ℚ), 1)) :=
  ⟨by norm_num [edgeCross], cull_swap_flips _ _ _ (by norm_num [edgeCross])⟩

/-- C8: the cull decision is invariant under uniform positive scaling of
all three input points. -/
theorem cull_scale_invariant (k : ℚ) (hk : 0 < k) (p0 p1 p2 : ℚ × ℚ) :
    cull (scalePt k p0) (scalePt k p1) (scalePt k p2) = cull p0 p1 p2 := by
  have hk2 : (0 : ℚ) < k ^ 2 := by positivity
  simp only [cull, scalePt]
  rw [decide_eq_decide, gt_iff_lt, gt_iff_lt]
  have e1 : (k * p1.1 - k * p0.1) * (k * p2.2 - k * p1.2) =
      k ^ 2 * ((p1.1 - p0.1) * (p2.2 - p1.2)) := by ring
  have e2 : (k * p2.1 - k * p1.1) * (k * p1.2 - k * p0.2) =
      k ^ 2 * ((p2.1 - p1.1) * (p1.2 - p0.2)) := by ring
  rw [e1, e2]
  exact mul_lt_mul_left hk2

/-- Witness for C8 at `k = 2` and the triple (0,0), (1,0), (0,1). -/
theorem cull_scale_invariant_witness :
    (0 : ℚ) < 2 ∧
    cull (scalePt 2 ((0 : ℚ), 0)) (scalePt 2 ((1 : ℚ), 0)) (scalePt 2 ((0 : ℚ), 1)) =
      cull ((0 : ℚ), 0) ((1 : ℚ), 0) ((0 : ℚ), 1) :=
  ⟨by norm_num, cull_scale_invariant 2 (by norm_num) _ _ _⟩

lemma setCell_some {b b' : Buffer} {r c : ℕ} {ch : Char}
    (h : setCell b r c ch = some b') :
    (r < SCREEN_HEIGHT ∧ c < SCREEN_WIDTH) ∧
      ∀ r' c', b' r' c' = if r' = r ∧ c' = c then ch else b r' c' := by
  unfold setCell at h
  split at h
  · next hb =>
    obtain rfl := (Option.some.inj h).symm
    exact ⟨hb, fun r' c' => rfl⟩
  · exact Option.noConfusion h

lemma vloop_pointwise {f : ℕ → ℕ} {b' : Buffer} {L : List ℕ} {b : Buffer}
    (h : vloop f b L = some b') (r c : ℕ) :
    b' r c = b r c ∨ (b' r c = '|' ∧ r < SCREEN_HEIGHT ∧ c < SCREEN_WIDTH) := by
  induction L generalizing b with
  | nil =>
    obtain rfl : b = b' := Option.some.inj h
    exact Or.inl rfl
  | cons iy rest ih =>
    simp only [vloop] at h
    rw [Option.bind_eq_some] at h
    obtain ⟨b1, hset, h⟩ := h
    obtain ⟨⟨hr, hc⟩, hcell⟩ := setCell_some hset
    rcases ih h with h1 | h1
    · rw [h1, hcell r c]
      by_cases hrc : r = iy ∧ c = f iy
      · rw [if_pos hrc]
        exact Or.inr ⟨rfl, by rw [hrc.1]; exact hr, by rw [hrc.2]; exact hc⟩
      · rw [if_neg hrc]
        exact Or.inl rfl
    · exact Or.inr h1

lemma hloop_pointwise {f : ℕ → ℕ} {b' : Buffer} {L : List ℕ} {b : Buffer}
    (h : hloop f b L = some b') (r c : ℕ) :
    b' r c = b r c ∨ (b' r c = '-' ∧ r < SCREEN_HEIGHT ∧ c < SCREEN_WIDTH) := by
  induction L generalizing b with
  | nil =>
    obtain rfl : b = b' := Option.some.inj h
    exact Or.inl rfl
  | cons ix rest ih =>
    simp only [hloop] at h
    rw [Option.bind_eq_some] at h
    obtain ⟨b1, hset, h⟩ := h
    obtain ⟨⟨hr, hc⟩, hcell⟩ := setCell_some hset
    rcases ih h with h1 | h1
    · rw [h1, hcell r c]
      by_cases hrc : r = f ix ∧ c = ix
      · rw [if_pos hrc]
        exact Or.inr ⟨rfl, by rw [hrc.1]; exact hr, by rw [hrc.2]; exact hc⟩
      · rw [if_neg hrc]
        exact Or.inl rfl
    · exact Or.inr h1

lemma draw_line_pointwise {b b' : Buffer} {ps pe : ℚ × ℚ}
    (h : draw_line b ps pe = some b') (r c : ℕ) :
    b' r c = b r c ∨
      ((b' r c = '|' ∨ b' r c = '-') ∧ r < SCREEN_HEIGHT ∧ c < SCREEN_WIDTH) := by
  simp only [draw_line] at h
  split at h
  · rcases vloop_pointwise h r c with h1 | h1
    · exact Or.inl h1
    · exact Or.inr ⟨Or.inl h1.1, h1.2⟩
  · rcases hloop_pointwise h r c with h1 | h1
    · exact Or.inl h1
    · exact Or.inr ⟨Or.inr h1.1, h1.2⟩

lemma drawEdges_pointwise {sp : ℕ → ℚ × ℚ} {b' : Buffer} {L : List ℕ}
    {en : ℕ} {b : Buffer} (h : drawEdges sp L en b = some b') (r c : ℕ) :
    b' r c = b r c ∨
      ((b' r c = '|' ∨ b' r c = '-') ∧ r < SCREEN_HEIGHT ∧ c < SCREEN_WIDTH) := by
  induction L generalizing b en with
  | nil =>
    obtain rfl : b = b' := Option.some.inj h
    exact Or.inl rfl
  | cons st rest ih =>
    simp only [drawEdges] at h
    rw [Option.bind_eq_some] at h
    obtain ⟨b1, hdl, h⟩ := h
    rcases ih h with h1 | h1
    · rcases draw_line_pointwise hdl r c with h2 | h2
      · exact Or.inl (h1.trans h2)
      · exact Or.inr (h1 ▸ h2)
    · exact Or.inr h1

lemma drawFace_pointwise {sp : ℕ → ℚ × ℚ} {b b' : Buffer} {face : List ℕ}
    (h : drawFace sp b face = some b') (r c : ℕ) :
    b' r c = b r c ∨
      ((b' r c = '|' ∨ b' r c = '-') ∧ r < SCREEN_HEIGHT ∧ c < SCREEN_WIDTH) := by
  unfold drawFace at h
  split at h
  · obtain rfl : b = b' := Option.some.inj h
    exact Or.inl rfl
  · exact drawEdges_pointwise h r c

lemma drawFaces_pointwise {sp : ℕ → ℚ × ℚ} {b' : Buffer} {L : List (List ℕ)}
    {b : Buffer} (h : drawFaces sp L b = some b') (r c : ℕ) :
    b' r c = b r c ∨
      ((b' r c = '|' ∨ b' r c = '-') ∧ r < SCREEN_HEIGHT ∧ c < SCREEN_WIDTH) := by
  induction L generalizing b with
  | nil =>
    obtain rfl : b = b' := Option.some.inj h
    exact Or.inl rfl
  | cons face rest ih =>
    simp only [drawFaces] at h
    rw [Option.bind_eq_some] at h
    obtain ⟨b1, hdf, h⟩ := h
    rcases ih h with h1 | h1
    · rcases drawFace_pointwise hdf r c with h2 | h2
      · exact Or.inl (h1.trans h2)
      · exact Or.inr (h1 ▸ h2)
    · exact Or.inr h1

/-- C5: whenever a frame reaches the printing stage, every cell of the
buffer holds one of the three characters space, `'|'`, `'-'`: the buffer
starts all-space and the rasterizer only ever writes `'|'` or `'-'`.
(The 40-row-by-80-column shape is the model's fixed grid; the printing
loop emits exactly rows 0..39, columns 0..79 of it.) -/
theorem renderFrame_alphabet (c s : ℚ) (r k : ℕ) :
    (renderFrame c s).elim True
      (fun buf => buf r k = ' ' ∨ buf r k = '|' ∨ buf r k = '-') := by
  cases hrf : renderFrame c s with
  | none => exact trivial
  | some buf =>
    unfold renderFrame at hrf
    rcases drawFaces_pointwise hrf r k with h1 | h1
    · exact Or.inl h1
    · rcases h1.1 with h2 | h2
      · exact Or.inr (Or.inl h2)
      · exact Or.inr (Or.inr h2)

/-- C10: `draw_line` never mutates a cell outside the 40x80 frame buffer,
for any input points whatsoever: casts saturate (negative values become
0), every store is bounds-checked, and an out-of-range store is the
defined panic (`none`), never an out-of-bounds write. -/
theorem draw_line_no_out_of_bounds_write (b : Buffer) (ps pe : ℚ × ℚ)
    (r c : ℕ) (h : ¬(r < SCREEN_HEIGHT ∧ c < SCREEN_WIDTH)) :
    (∀ q : ℚ, q < 0 → ratUsize q = 0) ∧
    (draw_line b ps pe).elim True (fun b' => b' r c = b r c) := by
  constructor
  · intro q hq
    have hfl : ⌊q⌋ < 0 := Int.floor_lt.mpr (by exact_mod_cast hq)
    simp only [ratUsize, intUsize, Int.toNat_of_nonpos hfl.le, Nat.zero_min]
  · cases hdl : draw_line b ps pe with
    | none => exact trivial
    | some b' =>
      rcases draw_line_pointwise hdl r c with h1 | h1
      · exact h1
      · exact absurd h1.2 h

/-- Witness for C10: the out-of-buffer row 40 is untouched by a concrete
vertical line draw. -/
theorem draw_line_no_out_of_bounds_write_witness :
    ¬(40 < SCREEN_HEIGHT ∧ 0 < SCREEN_WIDTH) ∧
    ((∀ q : ℚ, q < 0 → ratUsize q = 0) ∧
      (draw_line blank ((0 : ℚ), 0) ((0 : ℚ), 5)).elim True
        (fun b' => b' 40 0 = blank 40 0)) :=
  ⟨by decide, draw_line_no_out_of_bounds_write blank ((0 : ℚ), 0) ((0 : ℚ), 5)
    40 0 (by decide)⟩

lemma ceilUsize_mono {p q : ℚ} (h : p ≤ q) : ceilUsize p ≤ ceilUsize q := by
  unfold ceilUsize intUsize
  exact min_le_min (Int.toNat_le_toNat (Int.ceil_mono h)) le_rfl

lemma hloop_const_row {R : ℕ} {b' : Buffer} {L : List ℕ} {b : Buffer}
    (h : hloop (fun _ => R) b L = some b') (r c : ℕ) :
    b' r c = if r = R ∧ c ∈ L then '-' else b r c := by
  induction L generalizing b with
  | nil =>
    obtain rfl : b = b' := Option.some.inj h
    simp
  | cons ix rest ih =>
    simp only [hloop] at h
    rw [Option.bind_eq_some] at h
    obtain ⟨b1, hset, h⟩ := h
    obtain ⟨⟨hr, hc⟩, hcell⟩ := setCell_some hset
    rw [ih h]
    by_cases hmem : r = R ∧ c ∈ rest
    · rw [if_pos hmem, if_pos ⟨hmem.1, List.mem_cons_of_mem _ hmem.2⟩]
    · rw [if_neg hmem, hcell r c]
      by_cases hrc : r = R ∧ c = ix
      · rw [if_pos hrc, if_pos ⟨hrc.1, hrc.2 ▸ List.mem_cons_self _ _⟩]
      · rw [if_neg hrc, if_neg ?_]
        intro hco
        rcases List.mem_cons.mp hco.2 with h2 | h2
        · exact hrc ⟨hco.1, h2⟩
        · exact hmem ⟨hco.1, h2⟩

lemma vloop_const_col {C0 : ℕ} {b' : Buffer} {L : List ℕ} {b : Buffer}
    (h : vloop (fun _ => C0) b L = some b') (r c : ℕ) :
    b' r c = if c = C0 ∧ r ∈ L then '|' else b r c := by
  induction L generalizing b with
  | nil =>
    obtain rfl : b = b' := Option.some.inj h
    simp
  | cons iy rest ih =>
    simp only [vloop] at h
    rw [Option.bind_eq_some] at h
    obtain ⟨b1, hset, h⟩ := h
    obtain ⟨⟨hr, hc⟩, hcell⟩ := setCell_some hset
    rw [ih h]
    by_cases hmem : c = C0 ∧ r ∈ rest
    · rw [if_pos hmem, if_pos ⟨hmem.1, List.mem_cons_of_mem _ hmem.2⟩]
    · rw [if_neg hmem, hcell r c]
      by_cases hrc : r = iy ∧ c = C0
      · rw [if_pos hrc, if_pos ⟨hrc.2, hrc.1 ▸ List.mem_cons_self _ _⟩]
      · rw [if_neg hrc, if_neg ?_]
        intro hco
        rcases List.mem_cons.mp hco.2 with h2 | h2
        · exact hrc ⟨h2, hco.1⟩
        · exact hmem ⟨hco.1, h2⟩

/-- C7: `draw_line` is insensitive to the order of its two endpoints: the
swapped call produces the identical result (the same cells, the same
characters, and the same panic behavior) — exactly, with no boundary
tie-break difference in the exact-arithmetic model. -/
theorem draw_line_endpoint_order_irrelevant (b : Buffer) (ps pe : ℚ × ℚ) :
    draw_line b ps pe = draw_line b pe ps := by
  obtain ⟨x0, y0⟩ := ps
  obtain ⟨x1, y1⟩ := pe
  by_cases hd : x1 = x0 ∧ y1 = y0
  · obtain ⟨rfl, rfl⟩ := hd
    rfl
  · simp only [draw_line]
    have habsy : |y0 - y1| = |y1 - y0| := abs_sub_comm _ _
    have habsx : |x0 - x1| = |x1 - x0| := abs_sub_comm _ _
    have hminy : min y1 y0 = min y0 y1 := min_comm _ _
    have hmaxy : max y1 y0 = max y0 y1 := max_comm _ _
    have hminx : min x1 x0 = min x0 x1 := min_comm _ _
    have hmaxx : max x1 x0 = max x0 x1 := max_comm _ _
    rw [habsy, habsx, hminy, hmaxy, hminx, hmaxx]
    split
    · next hcond =>
      have hdy : y1 - y0 ≠ 0 := by
        intro h0
        rw [h0, abs_zero] at hcond
        exact absurd hcond (not_lt.mpr (abs_nonneg _))
      have hfun : (fun iy : ℕ => ratUsize (((iy : ℚ) - y0) * ((x1 - x0) / (y1 - y0)) + x0)) =
          fun iy : ℕ => ratUsize (((iy : ℚ) - y1) * ((x0 - x1) / (y0 - y1)) + x1) := by
        funext iy
        congr 1
        rw [show x0 - x1 = -(x1 - x0) by ring, show y0 - y1 = -(y1 - y0) by ring,
          neg_div_neg_eq]
        field_simp
        ring
      rw [hfun]
    · next hcond =>
      by_cases hdx : x1 - x0 = 0
      · exfalso
        have hx : x1 = x0 := by linarith [sub_eq_zero.mp hdx]
        have hy : y1 = y0 := by
          have hle := not_lt.mp hcond
          rw [show x1 - x0 = 0 from hdx, abs_zero] at hle
          have := abs_eq_zero.mp (le_antisymm hle (abs_nonneg _))
          linarith
        exact hd ⟨hx, hy⟩
      · have hfun : (fun ix : ℕ => ratUsize (((ix : ℚ) - x0) * ((y1 - y0) / (x1 - x0)) + y0)) =
            fun ix : ℕ => ratUsize (((ix : ℚ) - x1) * ((y0 - y1) / (x0 - x1)) + y1) := by
          funext ix
          congr 1
          rw [show y0 - y1 = -(y1 - y0) by ring, show x0 - x1 = -(x1 - x0) by ring,
            neg_div_neg_eq]
          field_simp
          ring
        rw [hfun]

/-- C9: a segment whose extent along the stepped axis is zero (for a
horizontal or vertical segment this means both endpoints coincide, since
the branch choice steps the larger extent) has an empty ceiling-bounded
iteration range and leaves the buffer completely unchanged. -/
theorem draw_line_zero_stepped_extent (b : Buffer) (ps pe : ℚ × ℚ)
    (haxis : ps.2 = pe.2 ∨ ps.1 = pe.1) (hzero : steppedExtent ps pe = 0) :
    draw_line b ps pe = some b := by
  obtain ⟨x0, y0⟩ := ps
  obtain ⟨x1, y1⟩ := pe
  unfold steppedExtent at hzero
  dsimp only at hzero
  simp only [draw_line]
  split at hzero
  · next hcond =>
    rw [hzero] at hcond
    exact absurd hcond (not_lt.mpr (abs_nonneg _))
  · next hcond =>
    have hdx : x1 - x0 = 0 := abs_eq_zero.mp hzero
    have hx : x1 = x0 := by linarith [sub_eq_zero.mp hdx]
    subst hx
    rw [if_neg hcond]
    simp only [min_self, max_self, Nat.sub_self]
    rfl

/-- Witness for C9 at the coincident endpoints (3/2, 2). -/
theorem draw_line_zero_stepped_extent_witness :
    (((3/2 : ℚ), (2 : ℚ)).2 = ((3/2 : ℚ), (2 : ℚ)).2 ∨
      ((3/2 : ℚ), (2 : ℚ)).1 = ((3/2 : ℚ), (2 : ℚ)).1) ∧
    steppedExtent ((3/2 : ℚ), (2 : ℚ)) ((3/2 : ℚ), (2 : ℚ)) = 0 ∧
    draw_line blank ((3/2 : ℚ), (2 : ℚ)) ((3/2 : ℚ), (2 : ℚ)) = some blank :=
  ⟨Or.inl rfl, by simp [steppedExtent],
    draw_line_zero_stepped_extent blank _ _ (Or.inl rfl) (by simp [steppedExtent])⟩

/-- C4: on a horizontal segment (equal y, distinct x) `draw_line` marks
only `'-'`, all on the single row `y as usize`, exactly at the columns
between the rounded-up x bounds, and leaves every other cell unchanged;
on a vertical segment (equal x, distinct y) it marks only `'|'`, all on
the single column `x as usize`, exactly at the rows between the
rounded-up y bounds, and leaves every other cell unchanged. -/
theorem draw_line_axis_aligned (b : Buffer) (x0 y0 x1 y1 : ℚ) :
    (y0 = y1 → x0 ≠ x1 →
      (draw_line b (x0, y0) (x1, y1)).elim True (fun b' => ∀ r c,
        b' r c =
          if r = ratUsize y0 ∧
              ceilUsize (min x0 x1) ≤ c ∧ c < ceilUsize (max x0 x1)
          then '-' else b r c)) ∧
    (x0 = x1 → y0 ≠ y1 →
      (draw_line b (x0, y0) (x1, y1)).elim True (fun b' => ∀ r c,
        b' r c =
          if c = ratUsize x0 ∧
              ceilUsize (min y0 y1) ≤ r ∧ r < ceilUsize (max y0 y1)
          then '|' else b r c)) := by
  constructor
  · intro hy hx
    subst hy
    cases hdl : draw_line b (x0, y0) (x1, y0) with
    | none => exact trivial
    | some b' =>
      intro r c
      simp only [draw_line] at hdl
      split at hdl
      · next hcond =>
        rw [show (x1, y0).2 - (x0, y0).2 = 0 by dsimp; ring, abs_zero] at hcond
        exact absurd hcond (not_lt.mpr (abs_nonneg _))
      · next hcond =>
        have hfun : (fun ix : ℕ =>
            ratUsize (((ix : ℚ) - (x0, y0).1) *
              (((x1, y0).2 - (x0, y0).2) / ((x1, y0).1 - (x0, y0).1)) + (x0, y0).2)) =
            fun _ : ℕ => ratUsize y0 := by
          funext ix
          rw [sub_self, zero_div, mul_zero, zero_add]
        rw [hfun] at hdl
        have hchar := hloop_const_row hdl r c
        rw [hchar]
        have hle : ceilUsize (min x0 x1) ≤ ceilUsize (max x0 x1) :=
          ceilUsize_mono min_le_max
        have hiff : (r = ratUsize y0 ∧
            c ∈ List.range' (ceilUsize (min x0 x1))
              (ceilUsize (max x0 x1) - ceilUsize (min x0 x1))) ↔
            (r = ratUsize y0 ∧
              ceilUsize (min x0 x1) ≤ c ∧ c < ceilUsize (max x0 x1)) := by
          rw [List.mem_range'_1, Nat.add_sub_cancel' hle]
        rw [if_congr hiff rfl rfl]
  · intro hx hy
    subst hx
    cases hdl : draw_line b (x0, y0) (x0, y1) with
    | none => exact trivial
    | some b' =>
      intro r c
      simp only [draw_line] at hdl
      split at hdl
      · next hcond =>
        have hfun : (fun iy : ℕ =>
            ratUsize (((iy : ℚ) - (x0, y0).2) *
              (((x0, y1).1 - (x0, y0).1) / ((x0, y1).2 - (x0, y0).2)) + (x0, y0).1)) =
            fun _ : ℕ => ratUsize x0 := by
          funext iy
          rw [sub_self, zero_div, mul_zero, zero_add]
        rw [hfun] at hdl
        have hchar := vloop_const_col hdl r c
        rw [hchar]
        have hle : ceilUsize (min y0 y1) ≤ ceilUsize (max y0 y1) :=
          ceilUsize_mono min_le_max
        have hiff : (c = ratUsize x0 ∧
            r ∈ List.range' (ceilUsize (min y0 y1))
              (ceilUsize (max y0 y1) - ceilUsize (min y0 y1))) ↔
            (c = ratUsize x0 ∧
              ceilUsize (min y0 y1) ≤ r ∧ r < ceilUsize (max y0 y1)) := by
          rw [List.mem_range'_1, Nat.add_sub_cancel' hle]
        rw [if_congr hiff rfl rfl]
      · next hcond =>
        exfalso
        rw [show (x0, y1).1 - (x0, y0).1 = 0 by dsimp; ring, abs_zero, not_lt] at hcond
        have := abs_eq_zero.mp (le_antisymm hcond (abs_nonneg _))
        exact hy (by linarith)

/-- Witness for C4: a horizontal segment (0,3)-(10,3) and a vertical
segment (2,5)-(2,1), both drawn on the blank buffer. -/
theorem draw_line_axis_aligned_witness :
    ((3 : ℚ) = 3 ∧ (0 : ℚ) ≠ 10 ∧
      (draw_line blank ((0 : ℚ), (3 : ℚ)) ((10 : ℚ), (3 : ℚ))).elim True
        (fun b' => ∀ r c,
          b' r c =
            if r = ratUsize 3 ∧
                ceilUsize (min (0 : ℚ) 10) ≤ c ∧ c < ceilUsize (max (0 : ℚ) 10)
            then '-' else blank r c)) ∧
    ((2 : ℚ) = 2 ∧ (5 : ℚ) ≠ 1 ∧
      (draw_line blank ((2 : ℚ), (5 : ℚ)) ((2 : ℚ), (1 : ℚ))).elim True
        (fun b' => ∀ r c,
          b' r c =
            if c = ratUsize 2 ∧
                ceilUsize (min (5 : ℚ) 1) ≤ r ∧ r < ceilUsize (max (5 : ℚ) 1)
            then '|' else blank r c)) :=
  ⟨⟨rfl, by norm_num,
      (draw_line_axis_aligned blank 0 3 10 3).1 rfl (by norm_num)⟩,
    ⟨rfl, by norm_num,
      (draw_line_axis_aligned blank 2 5 2 1).2 rfl (by norm_num)⟩⟩

end Cube
